import Mathlib

/-!
Shallow embedding of `withMemorized` from
`packages/memorize/src/internal/memorize.ts`.

The wrapper's closure state is two variables:
  `memory     : Record<string, MemorizedResult<T>>`
  `cacheOrder : string[]`
We model the record as an association list with unique-key insertion
(`mapInsert` replaces in place, like JS property assignment) and
`mapErase` for the `delete` operator.  JS `undefined` values are modelled
by `Option V` (`none` = undefined): the wrapped function returns an
`Option V` on success, and `getCachedResult`'s return type
`ReturnType | undefined` is the same `Option V`.  Failure of the wrapped
function (a rejected promise) is `Except.error`.  `Date.now()` is passed
in explicitly as `now : Nat`; the numeric `Infinity` expiration sentinel
is the constructor `Expiration.never`.  The truthiness tests
`ttl ? … : Infinity` and `maxCacheSize && …` are modelled exactly
(`0` is falsy).
-/

namespace Memorize

/-- The `expiration` field: either a timestamp or the `Infinity` sentinel. -/
inductive Expiration where
  | never : Expiration
  | atTime (t : Nat) : Expiration
deriving DecidableEq, Repr

/-- `e > now` on expirations, with `Infinity > now` always true. -/
def expGT : Expiration → Nat → Bool
  | .never, _ => true
  | .atTime t, now => decide (now < t)

/-- `MemorizedResult<T>`: a cached value with its expiration. -/
structure MemorizedResult (V : Type) where
  value : Option V
  expiration : Expiration
deriving DecidableEq, Repr

/-- The wrapper's closure state: the `memory` record and the `cacheOrder` array. -/
structure MemState (V : Type) where
  memory : List (String × MemorizedResult V)
  cacheOrder : List String
deriving DecidableEq, Repr

variable {V E : Type}

/-- `memory[key]` lookup on the association list. -/
def mapLookup : List (String × MemorizedResult V) → String → Option (MemorizedResult V)
  | [], _ => none
  | (k', e) :: rest, k => if k' = k then some e else mapLookup rest k

/-- `memory[key] = e`: replace in place if present, else append (JS property order). -/
def mapInsert : List (String × MemorizedResult V) → String → MemorizedResult V →
    List (String × MemorizedResult V)
  | [], k, e => [(k, e)]
  | (k', e') :: rest, k, e =>
      if k' = k then (k', e) :: rest else (k', e') :: mapInsert rest k e

/-- `delete memory[key]`. -/
def mapErase : List (String × MemorizedResult V) → String → List (String × MemorizedResult V)
  | [], _ => []
  | (k', e') :: rest, k => if k' = k then mapErase rest k else (k', e') :: mapErase rest k

/-- The state both closure variables start from (and after `clearMemory`). -/
def emptyState : MemState V := ⟨[], []⟩

/-- `ttl ? Date.now() + ttl : Infinity` — note `ttl = 0` is falsy. -/
def expirationFor (ttl : Option Nat) (now : Nat) : Expiration :=
  match ttl with
  | some t => if t = 0 then .never else .atTime (now + t)
  | none => .never

/-- `maxCacheSize && cacheOrder.length > maxCacheSize` — note `0` is falsy. -/
def exceedsBound (maxCacheSize : Option Nat) (len : Nat) : Bool :=
  match maxCacheSize with
  | some n => if n = 0 then false else decide (n < len)
  | none => false

/-- `getCachedResult`: the cached value if present and unexpired, else `undefined`. -/
def getCachedResult (st : MemState V) (now : Nat) (key : String) : Option V :=
  match mapLookup st.memory key with
  | some cachedResult =>
      if expGT cachedResult.expiration now then cachedResult.value else none
  | none => none

/-- `storeInCache`: write the entry, push the key onto `cacheOrder`, and evict
the front of `cacheOrder` when the configured bound is exceeded. -/
def storeInCache (ttl maxCacheSize : Option Nat) (st : MemState V) (now : Nat)
    (key : String) (result : Option V) : MemState V :=
  let memory1 := mapInsert st.memory key ⟨result, expirationFor ttl now⟩
  let cacheOrder1 := st.cacheOrder ++ [key]
  if exceedsBound maxCacheSize cacheOrder1.length then
    match cacheOrder1 with
    | [] => ⟨memory1, []⟩
    | keyToRemove :: rest => ⟨mapErase memory1 keyToRemove, rest⟩
  else
    ⟨memory1, cacheOrder1⟩

/-- `memorizedFunction` (one `Invoke`): `fnResult` is what `await fn(...args)`
would produce on this call.  Returns the call's outcome, the new state, and
whether `fn` was invoked. -/
def invoke (ttl maxCacheSize : Option Nat) (st : MemState V) (now : Nat)
    (key : String) (fnResult : Except E (Option V)) :
    Except E (Option V) × MemState V × Bool :=
  match getCachedResult st now key with
  | some cachedValue => (.ok (some cachedValue), st, false)
  | none =>
      match fnResult with
      | .error e => (.error e, st, true)
      | .ok result => (.ok result, storeInCache ttl maxCacheSize st now key result, true)

/-- `importMemory`: wholesale replacement of the `memory` record. -/
def importMemory (memoryToImport : List (String × MemorizedResult V))
    (st : MemState V) : MemState V :=
  { st with memory := memoryToImport }

/-- `exportMemory`: the live `memory` record. -/
def exportMemory (st : MemState V) : List (String × MemorizedResult V) := st.memory

/-- `clearMemory`: reset both closure variables. -/
def clearMemory (_st : MemState V) : MemState V := ⟨[], []⟩

/-- States reachable from construction through completed operations when
`importMemory` is never called: `Invoke` (with any time, key, and wrapped
function outcome) and `clearMemory`.  `exportMemory` does not change the
state, so it needs no constructor. -/
inductive Reachable (E : Type) (ttl mcs : Option Nat) : MemState V → Prop where
  | empty : Reachable E ttl mcs emptyState
  | invokeStep (st : MemState V) (now : Nat) (key : String)
      (fr : Except E (Option V)) :
      Reachable E ttl mcs st → Reachable E ttl mcs (invoke ttl mcs st now key fr).2.1
  | clearStep (st : MemState V) :
      Reachable E ttl mcs st → Reachable E ttl mcs (clearMemory st)

/-- The size invariant maintained by a wrapper with bound `N`: the cache's
keys are distinct, every cached key appears in the order log, and the log
has length at most `N`. -/
def SizeInv (N : Nat) (st : MemState V) : Prop :=
  (st.memory.map Prod.fst).Nodup ∧
  (∀ k ∈ st.memory.map Prod.fst, k ∈ st.cacheOrder) ∧
  st.cacheOrder.length ≤ N

/-- A `(key, value)` pair as stored by a successful `Invoke` with no TTL. -/
def neverEntry (p : String × V) : String × MemorizedResult V :=
  (p.1, ⟨some p.2, Expiration.never⟩)

/-- The wrapper state whose cache holds exactly the given pairs (stored with
no TTL) and whose order log lists their keys in order. -/
def stateOf (l : List (String × V)) : MemState V :=
  ⟨l.map neverEntry, l.map Prod.fst⟩

/-- Run a sequence of successful `Invoke` calls (no TTL, bound `N`), one per
listed pair: each call uses the pair's key and the wrapped function returns
the pair's value. -/
def runInvokes (N : Nat) : List (String × V) → MemState V → MemState V
  | [], st => st
  | p :: rest, st =>
      runInvokes N rest
        (invoke (E := Unit) none (some N) st 0 p.1 (.ok (some p.2))).2.1

/-! ### Association-list lemmas -/

theorem mapLookup_insert_self (m : List (String × MemorizedResult V)) (k : String)
    (e : MemorizedResult V) : mapLookup (mapInsert m k e) k = some e := by
  induction m with
  | nil => simp [mapInsert, mapLookup]
  | cons p rest ih =>
      obtain ⟨k', e'⟩ := p
      by_cases h : k' = k
      · simp [mapInsert, mapLookup, h]
      · simp [mapInsert, mapLookup, h, ih]

theorem mapLookup_eq_none_of_not_mem (m : List (String × MemorizedResult V)) (k : String)
    (h : k ∉ m.map Prod.fst) : mapLookup m k = none := by
  induction m with
  | nil => rfl
  | cons p rest ih =>
      simp only [List.map_cons, List.mem_cons] at h
      push_neg at h
      simpa [mapLookup, Ne.symm h.1] using ih h.2

theorem mapInsert_of_not_mem (m : List (String × MemorizedResult V)) (k : String)
    (e : MemorizedResult V) (h : k ∉ m.map Prod.fst) :
    mapInsert m k e = m ++ [(k, e)] := by
  induction m with
  | nil => rfl
  | cons p rest ih =>
      simp only [List.map_cons, List.mem_cons] at h
      push_neg at h
      simp [mapInsert, Ne.symm h.1, ih h.2]

theorem mapErase_of_not_mem (m : List (String × MemorizedResult V)) (k : String)
    (h : k ∉ m.map Prod.fst) : mapErase m k = m := by
  induction m with
  | nil => rfl
  | cons p rest ih =>
      simp only [List.map_cons, List.mem_cons] at h
      push_neg at h
      simp [mapErase, Ne.symm h.1, ih h.2]

theorem keys_mapInsert (m : List (String × MemorizedResult V)) (k : String)
    (e : MemorizedResult V) :
    (mapInsert m k e).map Prod.fst =
      if k ∈ m.map Prod.fst then m.map Prod.fst else m.map Prod.fst ++ [k] := by
  induction m with
  | nil => simp [mapInsert]
  | cons p rest ih =>
      obtain ⟨k', e'⟩ := p
      by_cases h : k' = k
      · simp [mapInsert, h]
      · by_cases hm : k ∈ rest.map Prod.fst <;>
          simp [mapInsert, h, hm, ih, Ne.symm h]

theorem keys_mapErase (m : List (String × MemorizedResult V)) (k : String) :
    (mapErase m k).map Prod.fst = (m.map Prod.fst).filter (fun x => x != k) := by
  induction m with
  | nil => rfl
  | cons p rest ih =>
      obtain ⟨k', e'⟩ := p
      by_cases h : k' = k
      · simp [mapErase, h, ih]
      · simp [mapErase, h, ih, List.filter_cons]

/-! ### Characterizations of `storeInCache` -/

theorem storeInCache_not_exceeds (ttl mcs : Option Nat) (st : MemState V)
    (now : Nat) (key : String) (r : Option V)
    (h : exceedsBound mcs (st.cacheOrder.length + 1) = false) :
    storeInCache ttl mcs st now key r =
      ⟨mapInsert st.memory key ⟨r, expirationFor ttl now⟩,
        st.cacheOrder ++ [key]⟩ := by
  simp only [storeInCache, List.length_append, List.length_singleton, h,
    Bool.false_eq_true, if_false]

theorem storeInCache_exceeds (ttl mcs : Option Nat) (st : MemState V)
    (now : Nat) (key : String) (r : Option V) (key0 : String)
    (rest : List String)
    (hco : st.cacheOrder ++ [key] = key0 :: rest)
    (h : exceedsBound mcs (rest.length + 1) = true) :
    storeInCache ttl mcs st now key r =
      ⟨mapErase (mapInsert st.memory key ⟨r, expirationFor ttl now⟩) key0,
        rest⟩ := by
  simp only [storeInCache, hco, List.length_cons, h, if_true]

/-! ### Runs of fresh-key stores -/

theorem keys_map_neverEntry (l : List (String × V)) :
    (l.map neverEntry).map Prod.fst = l.map Prod.fst := by
  simp [neverEntry, Function.comp]

theorem mapLookup_stateOf_of_not_mem (l : List (String × V)) (k : String)
    (h : k ∉ l.map Prod.fst) : mapLookup (l.map neverEntry) k = none := by
  apply mapLookup_eq_none_of_not_mem
  rwa [keys_map_neverEntry]

theorem mapLookup_stateOf_mem (l : List (String × V)) (k : String) (v : V)
    (hnd : (l.map Prod.fst).Nodup) (hm : (k, v) ∈ l) :
    mapLookup (l.map neverEntry) k = some ⟨some v, .never⟩ := by
  induction l with
  | nil => cases hm
  | cons p rest ih =>
      rcases List.mem_cons.mp hm with h1 | h1
      · subst h1
        simp [neverEntry, mapLookup]
      · have hnd' := List.nodup_cons.mp hnd
        have hkr : k ∈ rest.map Prod.fst := List.mem_map.mpr ⟨(k, v), h1, rfl⟩
        have hne : p.1 ≠ k := fun he => hnd'.1 (he ▸ hkr)
        simpa [neverEntry, mapLookup, hne] using ih hnd'.2 h1

theorem runInvokes_stateOf (N : Nat) (hN : 0 < N) :
    ∀ (l qs : List (String × V)),
      (qs.map Prod.fst ++ l.map Prod.fst).Nodup →
      qs.length ≤ N →
      runInvokes N l (stateOf qs)
        = stateOf ((qs ++ l).drop (qs.length + l.length - N))
  | [], qs, _hnd, hle => by
      simp [runInvokes, Nat.sub_eq_zero_of_le hle]
  | p :: rest, qs, hnd, hle => by
      have hnd' := List.nodup_append.mp hnd
      have hp_not_qs : p.1 ∉ qs.map Prod.fst := fun h =>
        hnd'.2.2 h (by simp)
      have hlookup : mapLookup (qs.map neverEntry) p.1 = none :=
        mapLookup_stateOf_of_not_mem qs p.1 hp_not_qs
      have hmem1 : mapInsert (qs.map neverEntry) p.1 ⟨some p.2, .never⟩
          = (qs ++ [p]).map neverEntry := by
        rw [mapInsert_of_not_mem _ _ _ (by rwa [keys_map_neverEntry])]
        simp [neverEntry]
      have hstep : (invoke (E := Unit) none (some N) (stateOf qs) 0 p.1
            (.ok (some p.2))).2.1
          = storeInCache none (some N) (stateOf qs) 0 p.1 (some p.2) := by
        simp [invoke, getCachedResult, stateOf, hlookup]
      by_cases hsz : qs.length + 1 ≤ N
      · have hexc : exceedsBound (some N)
            ((stateOf (V := V) qs).cacheOrder.length + 1) = false := by
          simp only [stateOf, exceedsBound, List.length_map,
            if_neg (by omega : ¬ N = 0)]
          simp only [decide_eq_false_iff_not]
          omega
        have hstore : storeInCache none (some N) (stateOf qs) 0 p.1 (some p.2)
            = stateOf (qs ++ [p]) := by
          rw [storeInCache_not_exceeds none (some N) (stateOf qs) 0 p.1
            (some p.2) hexc]
          simp only [stateOf, expirationFor]
          rw [hmem1]
          simp [neverEntry]
        have hnd2 : ((qs ++ [p]).map Prod.fst ++ rest.map Prod.fst).Nodup := by
          simpa [List.append_assoc] using hnd
        have ih := runInvokes_stateOf N hN rest (qs ++ [p]) hnd2
          (by simpa using hsz)
        simp only [runInvokes, hstep, hstore, ih]
        have harith : (qs ++ [p]).length + rest.length - N
            = qs.length + (p :: rest).length - N := by
          simp only [List.length_append, List.length_singleton,
            List.length_cons, List.length_nil]
          omega
        rw [harith, List.append_assoc]
        simp
      · have hqlen : qs.length = N := by omega
        obtain ⟨q, qs2, rfl⟩ : ∃ q qs2, qs = q :: qs2 := by
          cases qs with
          | nil => simp at hqlen; omega
          | cons a l => exact ⟨a, l, rfl⟩
        have hco : (stateOf (V := V) (q :: qs2)).cacheOrder ++ [p.1]
            = q.1 :: (qs2.map Prod.fst ++ [p.1]) := by
          simp [stateOf]
        have hexc : exceedsBound (some N)
            ((qs2.map Prod.fst ++ [p.1]).length + 1) = true := by
          simp only [exceedsBound, List.length_append, List.length_singleton,
            List.length_map, List.length_cons, List.length_nil,
            if_neg (by omega : ¬ N = 0)]
          simp only [decide_eq_true_eq]
          have : qs2.length + 1 = N := by
            simpa using hqlen
          omega
        have hq_not : q.1 ∉ (qs2 ++ [p]).map Prod.fst := by
          have h1 : q.1 ∉ qs2.map Prod.fst :=
            (List.nodup_cons.mp (by simpa using hnd'.1)).1
          have h2 : q.1 ≠ p.1 := by
            intro he
            have hm1 : q.1 ∈ (q :: qs2).map Prod.fst := by simp
            have hm2 : q.1 ∈ (p :: rest).map Prod.fst := by simp [he]
            exact hnd'.2.2 hm1 hm2
          simp only [List.map_append, List.mem_append]
          rintro (h | h)
          · exact h1 h
          · simp at h
            exact h2 h
        have hstore : storeInCache none (some N) (stateOf (q :: qs2)) 0 p.1
            (some p.2) = stateOf (qs2 ++ [p]) := by
          rw [storeInCache_exceeds none (some N) (stateOf (q :: qs2)) 0 p.1
            (some p.2) q.1 (qs2.map Prod.fst ++ [p.1]) hco hexc]
          have hmem2 : mapInsert ((q :: qs2).map neverEntry) p.1
              ⟨some p.2, expirationFor none 0⟩
              = (q :: (qs2 ++ [p])).map neverEntry := by
            rw [mapInsert_of_not_mem _ _ _ (by
              rw [keys_map_neverEntry]
              exact hp_not_qs)]
            simp [neverEntry, expirationFor]
          simp only [stateOf] at hmem2 ⊢
          rw [hmem2]
          have herase : mapErase ((q :: (qs2 ++ [p])).map neverEntry) q.1
              = (qs2 ++ [p]).map neverEntry := by
            simp only [List.map_cons]
            show mapErase ((q.1, _) :: _) q.1 = _
            simp only [mapErase, if_pos rfl]
            exact mapErase_of_not_mem _ _ (by rwa [keys_map_neverEntry])
          rw [herase]
          simp [neverEntry]
        have hnd2 : ((qs2 ++ [p]).map Prod.fst ++ rest.map Prod.fst).Nodup := by
          have hall : (q.1 :: (qs2.map Prod.fst
              ++ (p.1 :: rest.map Prod.fst))).Nodup := by
            simpa using hnd
          have htail := (List.nodup_cons.mp hall).2
          simpa [List.append_assoc] using htail
        have hq2 : qs2.length + 1 = N := by simpa using hqlen
        have ih := runInvokes_stateOf N hN rest (qs2 ++ [p]) hnd2
          (by
            simp only [List.length_append, List.length_singleton,
              List.length_cons, List.length_nil]
            omega)
        simp only [runInvokes, hstep, hstore, ih]
        have harith1 : (qs2 ++ [p]).length + rest.length - N
            = rest.length := by
          simp only [List.length_append, List.length_singleton,
            List.length_cons, List.length_nil]
          omega
        have harith2 : (q :: qs2).length + (p :: rest).length - N
            = rest.length + 1 := by
          simp only [List.length_cons]
          omega
        rw [harith1, harith2]
        have hlists : (q :: qs2) ++ (p :: rest)
            = q :: ((qs2 ++ [p]) ++ rest) := by
          simp
        rw [hlists, List.drop_succ_cons]

/-! ### The size invariant -/

theorem sizeInv_empty (N : Nat) : SizeInv N (emptyState (V := V)) := by
  simp [SizeInv, emptyState]

theorem sizeInv_store (N : Nat) (hN : 0 < N) (ttl : Option Nat)
    (st : MemState V) (now : Nat) (key : String) (r : Option V)
    (h : SizeInv N st) : SizeInv N (storeInCache ttl (some N) st now key r) := by
  obtain ⟨hnd, hsub, hlen⟩ := h
  have hN0 : N ≠ 0 := by omega
  set e : MemorizedResult V := ⟨r, expirationFor ttl now⟩ with he
  have hkeys := keys_mapInsert st.memory key e
  have hnd1 : ((mapInsert st.memory key e).map Prod.fst).Nodup := by
    rw [hkeys]
    by_cases hk : key ∈ st.memory.map Prod.fst
    · simpa [hk] using hnd
    · simp only [hk, if_false]
      exact ((List.perm_append_singleton key _).nodup_iff).mpr
        (List.nodup_cons.mpr ⟨hk, hnd⟩)
  have hsub1 : ∀ k ∈ (mapInsert st.memory key e).map Prod.fst,
      k ∈ st.cacheOrder ++ [key] := by
    intro k hkmem
    rw [hkeys] at hkmem
    by_cases hk : key ∈ st.memory.map Prod.fst
    · simp only [hk, if_true] at hkmem
      exact List.mem_append_left _ (hsub k hkmem)
    · simp only [hk, if_false, List.mem_append, List.mem_singleton] at hkmem
      rcases hkmem with h1 | h1
      · exact List.mem_append_left _ (hsub k h1)
      · exact h1 ▸ List.mem_append_right _ (by simp)
  by_cases hexc : exceedsBound (some N) (st.cacheOrder.length + 1) = true
  · obtain ⟨key0, rest, hco⟩ :
        ∃ key0 rest, st.cacheOrder ++ [key] = key0 :: rest := by
      cases st.cacheOrder with
      | nil => exact ⟨key, [], by simp⟩
      | cons a l => exact ⟨a, l ++ [key], by simp⟩
    have hlenr : rest.length = st.cacheOrder.length := by
      have := congrArg List.length hco
      simp at this
      omega
    rw [storeInCache_exceeds ttl (some N) st now key r key0 rest hco
      (by rw [hlenr]; exact hexc)]
    refine ⟨?_, ?_, ?_⟩
    · rw [keys_mapErase]
      exact hnd1.filter _
    · intro k hk
      rw [keys_mapErase] at hk
      have hk' := List.mem_filter.mp hk
      have hkm : k ∈ st.cacheOrder ++ [key] := hsub1 k hk'.1
      have hne : k ≠ key0 := by simpa using hk'.2
      rw [hco] at hkm
      exact (List.mem_cons.mp hkm).resolve_left hne
    · rw [hlenr]
      exact hlen
  · rw [storeInCache_not_exceeds ttl (some N) st now key r
      (by simpa using hexc)]
    refine ⟨hnd1, hsub1, ?_⟩
    simp only [exceedsBound, hN0, if_false, decide_eq_true_eq] at hexc
    simp only [List.length_append, List.length_singleton]
    omega

theorem sizeInv_invoke (N : Nat) (hN : 0 < N) (ttl : Option Nat)
    (st : MemState V) (now : Nat) (key : String) (fr : Except E (Option V))
    (h : SizeInv N st) : SizeInv N (invoke ttl (some N) st now key fr).2.1 := by
  cases hg : getCachedResult st now key with
  | some v => simpa [invoke, hg] using h
  | none =>
      cases fr with
      | error e => simpa [invoke, hg] using h
      | ok result =>
          have : (invoke ttl (some N) st now key
                (Except.ok result : Except E (Option V))).2.1
              = storeInCache ttl (some N) st now key result := by
            simp [invoke, hg]
          rw [this]
          exact sizeInv_store N hN ttl st now key result h

theorem reachable_sizeInv (E : Type) (ttl : Option Nat) (N : Nat)
    (hN : 0 < N) (st : MemState V) (h : Reachable E ttl (some N) st) :
    SizeInv N st := by
  induction h with
  | empty => exact sizeInv_empty N
  | invokeStep st now key fr hr ih => exact sizeInv_invoke N hN ttl st now key fr ih
  | clearStep st hr ih => exact sizeInv_empty N

/-! ### Claim theorems -/

/-- C1 (counterexample): two sequential `Invoke` calls on the same key within
the TTL do NOT invoke the wrapped function exactly once when the first call's
result is `undefined`: the stored `undefined` is treated as a miss, `fn` runs
again on the second call, and the second call's result can differ from the
first's. Here ttl = 5, the calls happen at times 0 and 3 (within the TTL). -/
theorem c1_undefined_result_reinvokes :
    (invoke (E := Unit) (some 5) none (emptyState (V := Nat)) 0 "a" (.ok none)).2.2
        = true ∧
    (invoke (E := Unit) (some 5) none
        (invoke (E := Unit) (some 5) none (emptyState (V := Nat)) 0 "a"
          (.ok none)).2.1
        3 "a" (.ok (some 9))).2.2 = true ∧
    (invoke (E := Unit) (some 5) none
        (invoke (E := Unit) (some 5) none (emptyState (V := Nat)) 0 "a"
          (.ok none)).2.1
        3 "a" (.ok (some 9))).1 = .ok (some 9) ∧
    (invoke (E := Unit) (some 5) none (emptyState (V := Nat)) 0 "a" (.ok none)).1
        = .ok none ∧
    (some 9 : Option Nat) ≠ none ∧ (0 : Nat) < 5 ∧ 3 < 0 + 5 :=
  ⟨rfl, rfl, rfl, rfl, by decide, by decide, by decide⟩

/-- C1 (amended): with ttl = t > 0 and no size bound, if the first `Invoke`
call is a miss and the wrapped function returns a DEFINED value `v`, then a
second sequential `Invoke` on the same key within `t` milliseconds of the
first call's store does not invoke the wrapped function, returns the identical
value, and leaves the state unchanged. -/
theorem c1_two_sequential_calls_single_invocation (t : Nat) (key : String)
    (st : MemState V) (n0 n1 : Nat) (v : V) (fr2 : Except E (Option V))
    (ht : 0 < t)
    (hmiss : getCachedResult st n0 key = none)
    (_hseq : n0 ≤ n1) (hwithin : n1 < n0 + t) :
    (invoke (E := E) (some t) none st n0 key (.ok (some v))).2.2 = true ∧
    invoke (some t) none (invoke (E := E) (some t) none st n0 key (.ok (some v))).2.1
        n1 key fr2
      = (.ok (some v),
         (invoke (E := E) (some t) none st n0 key (.ok (some v))).2.1, false) := by
  have ht' : t ≠ 0 := by omega
  have h1 : invoke (E := E) (some t) none st n0 key (.ok (some v))
      = (.ok (some v),
         ⟨mapInsert st.memory key ⟨some v, .atTime (n0 + t)⟩,
           st.cacheOrder ++ [key]⟩, true) := by
    simp [invoke, hmiss, storeInCache, exceedsBound, expirationFor, ht']
  refine ⟨by rw [h1], ?_⟩
  rw [h1]
  simp [invoke, getCachedResult, mapLookup_insert_self, expGT, hwithin]

/-- C1 witness: a concrete run of the amended theorem with t = 5, calls at
times 0 and 3, and value 7. -/
theorem c1_two_sequential_calls_single_invocation_witness :
    (invoke (E := Unit) (some 5) none (emptyState (V := Nat)) 0 "a"
        (.ok (some 7))).2.2 = true ∧
    invoke (E := Unit) (some 5) none
        (invoke (E := Unit) (some 5) none (emptyState (V := Nat)) 0 "a"
          (.ok (some 7))).2.1 3 "a" (.ok none)
      = (.ok (some 7),
         (invoke (E := Unit) (some 5) none (emptyState (V := Nat)) 0 "a"
           (.ok (some 7))).2.1, false) :=
  c1_two_sequential_calls_single_invocation 5 "a" emptyState 0 3 7 (.ok none)
    (by decide) rfl (by decide) (by decide)

/-- C3: if the wrapped function fails on a cache miss, `Invoke` propagates the
same failure and leaves the cache and the insertion-order log exactly as
they were before the call. -/
theorem c3_failure_propagates_state_unchanged (ttl mcs : Option Nat)
    (st : MemState V) (now : Nat) (key : String) (e : E)
    (hmiss : getCachedResult st now key = none) :
    invoke ttl mcs st now key (.error e) = (.error e, st, true) := by
  simp [invoke, hmiss]

/-- C3 witness: a concrete failing call on an empty cache. -/
theorem c3_failure_propagates_state_unchanged_witness :
    getCachedResult (emptyState (V := Nat)) 0 "k" = none ∧
    invoke none none (emptyState (V := Nat)) 0 "k" (.error ())
      = (.error (), emptyState, true) :=
  ⟨rfl, c3_failure_propagates_state_unchanged none none emptyState 0 "k" () rfl⟩

/-- C4: if the cache holds an unexpired entry for the key whose stored value
is defined, `Invoke` returns that value without invoking the wrapped function
and without mutating any state; if the stored value is the `undefined`
sentinel, the call is treated as a miss and the wrapped function is invoked. -/
theorem c4_hit_returns_cached_undefined_is_miss (ttl mcs : Option Nat)
    (st : MemState V) (now : Nat) (key : String) (r : MemorizedResult V)
    (fr : Except E (Option V))
    (hlook : mapLookup st.memory key = some r)
    (hvalid : expGT r.expiration now = true) :
    (∀ v : V, r.value = some v →
        invoke ttl mcs st now key fr = (.ok (some v), st, false)) ∧
    (r.value = none → (invoke ttl mcs st now key fr).2.2 = true) := by
  constructor
  · intro v hv
    simp [invoke, getCachedResult, hlook, hvalid, hv]
  · intro hv
    have hmiss : getCachedResult st now key = none := by
      simp [getCachedResult, hlook, hvalid, hv]
    cases fr with
    | error e => simp [invoke, hmiss]
    | ok result => simp [invoke, hmiss]

/-- C4 witness: a concrete unexpired entry with defined value 5 is returned
without invoking the wrapped function. -/
theorem c4_hit_returns_cached_undefined_is_miss_witness :
    mapLookup ([("k", ⟨some 5, Expiration.never⟩)] :
        List (String × MemorizedResult Nat)) "k" = some ⟨some 5, .never⟩ ∧
    expGT Expiration.never 0 = true ∧
    invoke (E := Unit) none none
        ⟨[("k", ⟨some 5, Expiration.never⟩)], []⟩ 0 "k" (.ok none)
      = (.ok (some 5), ⟨[("k", ⟨some 5, Expiration.never⟩)], []⟩, false) :=
  ⟨rfl, rfl,
    (c4_hit_returns_cached_undefined_is_miss none none
      ⟨[("k", ⟨some 5, Expiration.never⟩)], []⟩ 0 "k" ⟨some 5, .never⟩
      (.ok none) rfl rfl).1 5 rfl⟩

/-- C5 (counterexample): export/import does not always reproduce cache hits.
Wrapper A caches an `undefined` result for "k" (entry unexpired at export
time, expiration `never`); after importing A's snapshot into a fresh wrapper,
`Invoke("k", …)` still invokes the wrapped function. -/
theorem c5_undefined_snapshot_entry_reinvokes :
    mapLookup (exportMemory
        (invoke (E := Unit) none none (emptyState (V := Nat)) 0 "k"
          (.ok none)).2.1) "k" = some ⟨none, Expiration.never⟩ ∧
    expGT Expiration.never 0 = true ∧
    (invoke (E := Unit) none none
        (importMemory (exportMemory
            (invoke (E := Unit) none none (emptyState (V := Nat)) 0 "k"
              (.ok none)).2.1)
          (emptyState (V := Nat))) 0 "k" (.ok (some 1))).2.2 = true :=
  ⟨rfl, rfl, rfl⟩

/-- C5 (amended): if the exported snapshot holds an entry for the key whose
stored value is DEFINED and which is unexpired at the time of the later call,
then after importing into a fresh wrapper, `Invoke` returns the snapshot's
stored value without invoking the wrapped function. -/
theorem c5_roundtrip_reproduces_hit (stA : MemState V) (ttl mcs : Option Nat)
    (key : String) (r : MemorizedResult V) (v : V) (now : Nat)
    (fr : Except E (Option V))
    (hlook : mapLookup (exportMemory stA) key = some r)
    (hval : r.value = some v)
    (hvalid : expGT r.expiration now = true) :
    invoke ttl mcs (importMemory (exportMemory stA) emptyState) now key fr
      = (.ok (some v), importMemory (exportMemory stA) emptyState, false) := by
  simp [invoke, getCachedResult, importMemory, exportMemory, emptyState] at hlook ⊢
  simp [hlook, hvalid, hval]

/-- C5 witness: a concrete snapshot round-trip reproducing a hit. -/
theorem c5_roundtrip_reproduces_hit_witness :
    mapLookup (exportMemory
        (⟨[("k", ⟨some 2, Expiration.never⟩)], []⟩ : MemState Nat)) "k"
      = some ⟨some 2, .never⟩ ∧
    invoke (E := Unit) none none
        (importMemory
          (exportMemory (⟨[("k", ⟨some 2, Expiration.never⟩)], []⟩ : MemState Nat))
          emptyState) 0 "k" (.ok none)
      = (.ok (some 2),
         importMemory
           (exportMemory (⟨[("k", ⟨some 2, Expiration.never⟩)], []⟩ : MemState Nat))
           emptyState, false) :=
  ⟨rfl,
    c5_roundtrip_reproduces_hit ⟨[("k", ⟨some 2, Expiration.never⟩)], []⟩
      none none "k" ⟨some 2, .never⟩ 2 0 (.ok none) rfl rfl rfl⟩

/-- C6: `importMemory` replaces the cache mapping wholesale with the snapshot,
leaves the insertion-order log untouched, and subsequent lookups depend only
on the imported data (its entries and expirations are used directly). -/
theorem c6_import_wholesale_preserves_order (s : List (String × MemorizedResult V))
    (st : MemState V) :
    (importMemory s st).memory = s ∧
    (importMemory s st).cacheOrder = st.cacheOrder ∧
    ∀ (now : Nat) (key : String),
      getCachedResult (importMemory s st) now key
        = getCachedResult ⟨s, []⟩ now key := by
  refine ⟨rfl, rfl, fun now key => ?_⟩
  simp [getCachedResult, importMemory]

/-- C9: a wrapper constructed with ttl = 0 behaves exactly as if no TTL were
configured: `Invoke` is the same function, every stored entry gets the
`Infinity` expiration sentinel, and such an entry never expires. -/
theorem c9_ttl_zero_means_no_expiration (mcs : Option Nat) (st : MemState V)
    (now n : Nat) (key : String) (fr : Except E (Option V)) :
    invoke (some 0) mcs st now key fr = invoke none mcs st now key fr ∧
    expirationFor (some 0) now = Expiration.never ∧
    expGT Expiration.never n = true := by
  refine ⟨?_, rfl, rfl⟩
  cases h : getCachedResult st now key with
  | some v => simp [invoke, h]
  | none =>
      cases fr with
      | error e => simp [invoke, h]
      | ok result => simp [invoke, h, storeInCache, expirationFor]

/-- C10: self-eviction on a re-store.  With maxCacheSize = 1 and ttl = 5,
key "k" is stored at time 0; at time 10 the entry is expired, so the second
`Invoke` recomputes and re-stores "k", pushing a duplicate log entry; the
eviction then removes the front occurrence of "k" and deletes the entry just
written: the call returns the fresh value but the cache no longer holds "k". -/
theorem c10_self_eviction_on_restore :
    (invoke (E := Unit) (some 5) (some 1) (emptyState (V := Nat)) 0 "k"
        (.ok (some 3))).2.1
      = ⟨[("k", ⟨some 3, .atTime 5⟩)], ["k"]⟩ ∧
    invoke (E := Unit) (some 5) (some 1)
        ⟨[("k", ⟨some 3, .atTime 5⟩)], ["k"]⟩ 10 "k" (.ok (some 4))
      = (.ok (some 4), ⟨[], ["k"]⟩, true) ∧
    mapLookup (V := Nat) [] "k" = none :=
  ⟨rfl, rfl, rfl⟩

/-- C2 (counterexample): eviction is triggered by the length of the
insertion-order log, not by the number of entries in the cache.  With
maxCacheSize = 2, three successful `Invoke` calls on the single key "k1"
(whose result is `undefined`, so each call re-stores) reach a state with one
cache entry and the log ["k1", "k1"]; the third call's insertion leaves only
1 ≤ 2 entries in the cache, yet an eviction occurs and deletes the entry. -/
theorem c2_eviction_despite_small_cache :
    (invoke (E := Unit) none (some 2)
        (invoke (E := Unit) none (some 2) (emptyState (V := Nat)) 0 "k1"
          (.ok none)).2.1
        1 "k1" (.ok none)).2.1
      = (⟨[("k1", ⟨none, Expiration.never⟩)], ["k1", "k1"]⟩ : MemState Nat) ∧
    (mapInsert ([("k1", ⟨none, Expiration.never⟩)] :
        List (String × MemorizedResult Nat)) "k1"
        ⟨none, Expiration.never⟩).length = 1 ∧
    1 ≤ 2 ∧
    invoke (E := Unit) none (some 2)
        (⟨[("k1", ⟨none, Expiration.never⟩)], ["k1", "k1"]⟩ : MemState Nat)
        2 "k1" (.ok none)
      = (.ok none, (⟨[], ["k1", "k1"]⟩ : MemState Nat), true) :=
  ⟨rfl, rfl, by decide, rfl⟩

/-- C2 (amended): with maxCacheSize = N > 0, a store evicts if and only if
the insertion-order log exceeds length N after the key is appended; the
eviction removes the log's front key and deletes that key's cache entry.
With no maxCacheSize, no eviction ever occurs. -/
theorem c2_eviction_iff_order_log_exceeds (ttl : Option Nat) (N : Nat)
    (st : MemState V) (now : Nat) (key : String) (r : Option V) (hN : 0 < N) :
    (N < st.cacheOrder.length + 1 →
        storeInCache ttl (some N) st now key r =
          ⟨mapErase (mapInsert st.memory key ⟨r, expirationFor ttl now⟩)
              (st.cacheOrder.headD key),
            (st.cacheOrder ++ [key]).tail⟩) ∧
    (¬ N < st.cacheOrder.length + 1 →
        storeInCache ttl (some N) st now key r =
          ⟨mapInsert st.memory key ⟨r, expirationFor ttl now⟩,
            st.cacheOrder ++ [key]⟩) ∧
    storeInCache ttl none st now key r =
      ⟨mapInsert st.memory key ⟨r, expirationFor ttl now⟩,
        st.cacheOrder ++ [key]⟩ := by
  have hN0 : N ≠ 0 := by omega
  refine ⟨?_, ?_, ?_⟩
  · intro hlt
    cases hco : st.cacheOrder with
    | nil =>
        rw [hco] at hlt
        simp at hlt
        omega
    | cons a rest =>
        rw [hco] at hlt
        simp only [List.length_cons] at hlt
        simp [storeInCache, exceedsBound, hN0, hco, List.cons_append,
          List.length_cons, List.length_append, hlt]
  · intro hge
    have : ¬ N < st.cacheOrder.length + 1 := hge
    simp [storeInCache, exceedsBound, hN0, List.length_append, this]
  · simp [storeInCache, exceedsBound]

/-- C2 witness: with N = 1 and an empty log, a store does not evict. -/
theorem c2_eviction_iff_order_log_exceeds_witness :
    ¬ (1 : Nat) < (emptyState (V := Nat)).cacheOrder.length + 1 ∧
    storeInCache none (some 1) (emptyState (V := Nat)) 0 "k" (some 3) =
      ⟨mapInsert (emptyState (V := Nat)).memory "k" ⟨some 3, expirationFor none 0⟩,
        (emptyState (V := Nat)).cacheOrder ++ ["k"]⟩ :=
  ⟨by decide,
    (c2_eviction_iff_order_log_exceeds none 1 emptyState 0 "k" (some 3)
      (by decide)).2.1 (by decide)⟩

/-- C7 (counterexample): with maxCacheSize = 0 the claim fails, because the
bound check is a truthiness test and `0` is falsy: after storing 0 + 1 = 1
distinct key, a subsequent `Invoke` on that key finds it cached (nothing was
evicted) and does not invoke the wrapped function. -/
theorem c7_maxsize_zero_means_unbounded :
    (invoke (E := Unit) none (some 0)
        (runInvokes 0 [("a", 1)] (emptyState (V := Nat))) 0 "a"
        (.ok (some 99))).2.2 = false ∧
    (invoke (E := Unit) none (some 0)
        (runInvokes 0 [("a", 1)] (emptyState (V := Nat))) 0 "a"
        (.ok (some 99))).1 = .ok (some 1) :=
  ⟨rfl, rfl⟩

/-- C7 (amended): with maxCacheSize = N ≥ 1 and no TTL, after successful
`Invoke` calls storing N + 1 distinct keys in order from an empty cache, a
subsequent `Invoke` on the first key invokes the wrapped function again (it
was evicted), while a subsequent `Invoke` on the last key returns its cached
value without invoking the wrapped function and without changing state. -/
theorem c7_oldest_evicted_newest_cached (N : Nat) (l : List (String × V))
    (k1 : String) (v1 : V) (kL : String) (vL : V)
    (fr fr2 : Except E (Option V))
    (hN : 0 < N) (hlen : l.length = N + 1)
    (hnd : (l.map Prod.fst).Nodup)
    (hhead : l.head? = some (k1, v1))
    (hlast : l.getLast? = some (kL, vL)) :
    (invoke none (some N) (runInvokes N l emptyState) 0 k1 fr).2.2 = true ∧
    invoke none (some N) (runInvokes N l emptyState) 0 kL fr2
      = (.ok (some vL), runInvokes N l emptyState, false) := by
  cases l with
  | nil => simp at hhead
  | cons a tail =>
      simp only [List.head?_cons, Option.some.injEq] at hhead
      subst hhead
      have htl : tail.length = N := by simpa using hlen
      have hidx : ([] : List (String × V)).length
          + ((k1, v1) :: tail).length - N = 1 := by
        simp only [List.length_nil, List.length_cons, htl]
        omega
      have hrun : runInvokes N ((k1, v1) :: tail) emptyState = stateOf tail := by
        have hchar := runInvokes_stateOf N hN ((k1, v1) :: tail) []
          (by simpa using hnd) (by simp)
        rw [hidx] at hchar
        simpa using hchar
      have hk1 : k1 ∉ tail.map Prod.fst :=
        (List.nodup_cons.mp (by simpa using hnd)).1
      have hmiss : getCachedResult (stateOf tail) 0 k1 = none := by
        simp [getCachedResult, stateOf, mapLookup_stateOf_of_not_mem tail k1 hk1]
      obtain ⟨b, tail2, rfl⟩ : ∃ b tail2, tail = b :: tail2 := by
        cases tail with
        | nil =>
            exfalso
            simp at htl
            omega
        | cons b t2 => exact ⟨b, t2, rfl⟩
      have hlastmem : (kL, vL) ∈ b :: tail2 := by
        rw [List.getLast?_cons_cons] at hlast
        obtain ⟨hne, heq⟩ := List.mem_getLast?_eq_getLast
          (show (kL, vL) ∈ (b :: tail2).getLast? from by rw [hlast]; rfl)
        exact heq ▸ List.getLast_mem hne
      have hnd_tail : ((b :: tail2).map Prod.fst).Nodup :=
        (List.nodup_cons.mp (by simpa using hnd)).2
      have hlook : mapLookup ((b :: tail2).map neverEntry) kL
          = some ⟨some vL, .never⟩ :=
        mapLookup_stateOf_mem _ kL vL hnd_tail hlastmem
      constructor
      · rw [hrun]
        cases fr with
        | error e => simp [invoke, hmiss]
        | ok r => simp [invoke, hmiss]
      · rw [hrun]
        simp only [List.map_cons] at hlook
        simp [invoke, getCachedResult, stateOf, hlook, expGT]

/-- C7 witness: N = 1 and keys "a" then "b": afterwards, `Invoke("a", …)`
re-invokes the wrapped function and `Invoke("b", …)` is served from cache. -/
theorem c7_oldest_evicted_newest_cached_witness :
    (invoke (E := Unit) none (some 1)
        (runInvokes 1 [("a", 10), ("b", 20)] (emptyState (V := Nat))) 0 "a"
        (.ok (some 30))).2.2 = true ∧
    invoke (E := Unit) none (some 1)
        (runInvokes 1 [("a", 10), ("b", 20)] (emptyState (V := Nat))) 0 "b"
        (.ok (some 30))
      = (.ok (some 20),
         runInvokes 1 [("a", 10), ("b", 20)] (emptyState (V := Nat)), false) :=
  c7_oldest_evicted_newest_cached 1 [("a", 10), ("b", 20)] "a" 10 "b" 20
    (.ok (some 30)) (.ok (some 30)) (by decide) (by decide) (by decide)
    (by decide) (by decide)

/-- C8: with maxCacheSize = N > 0 and `importMemory` never called, after
every completed operation (any sequence of `Invoke` and `clearMemory` from
construction; `exportMemory` does not change the state) the cache holds at
most N entries and the insertion-order log has length at most N. -/
theorem c8_size_bound_invariant (E : Type) (ttl : Option Nat) (N : Nat)
    (st : MemState V) (hN : 0 < N) (hr : Reachable E ttl (some N) st) :
    st.memory.length ≤ N ∧ st.cacheOrder.length ≤ N := by
  obtain ⟨hnd, hsub, hlen⟩ := reachable_sizeInv E ttl N hN st hr
  refine ⟨?_, hlen⟩
  have h1 : (st.memory.map Prod.fst).length ≤ st.cacheOrder.length :=
    (List.subperm_of_subset hnd hsub).length_le
  rw [List.length_map] at h1
  exact h1.trans hlen

/-- C8 witness: two `Invoke` calls with bound 1 from construction keep both
the cache and the log at size at most 1. -/
theorem c8_size_bound_invariant_witness :
    (0 : Nat) < 1 ∧
    ((invoke (E := Unit) none (some 1)
        (invoke (E := Unit) none (some 1) (emptyState (V := Nat)) 0 "a"
          (.ok (some 2))).2.1
        0 "b" (.ok (some 3))).2.1).memory.length ≤ 1 ∧
    ((invoke (E := Unit) none (some 1)
        (invoke (E := Unit) none (some 1) (emptyState (V := Nat)) 0 "a"
          (.ok (some 2))).2.1
        0 "b" (.ok (some 3))).2.1).cacheOrder.length ≤ 1 :=
  ⟨by decide,
    c8_size_bound_invariant Unit none 1 _ (by decide)
      (Reachable.invokeStep _ 0 "b" (.ok (some 3))
        (Reachable.invokeStep _ 0 "a" (.ok (some 2)) Reachable.empty))⟩

end Memorize
